import Mathlib

/-!
A verification development for the qiitareactioncounter repository.

The Python sources are shallowly embedded:

* `QiitaArticle` mirrors `schemas.QiitaArticle`; timestamps and the URL are
  kept as opaque strings (only equality of records matters here).
* Python `dict[int, int]` values (the three frequency distributions) are
  modelled by association lists kept sorted by strictly increasing key,
  the canonical representative of a Python dict under Python's
  order-insensitive `==`.  `dictGet`/`dictSet` mirror `d.get(k, 0)` and
  `d[k] = v`.
* Machine integers are `Nat`/`Int` (Python integers are unbounded, so no
  overflow modelling is needed); `float` results of the analysis are
  modelled as exact rationals `ℚ` (all quantities appearing in the claims
  are exactly representable).
* The process-terminating `sys.exit(1)` path of `collect_articles` is
  modelled by an `Option` result: `none` is the fatal exit.
* `random.sample` is modelled by an explicit sampler parameter; the
  guarantees Python documents for it (result length `k`, elements drawn
  from the population) are captured by `ValidSampler`.
* The `while` loop of `find_valid_last_page` is embedded with a fuel
  parameter; the fuel `101` passed by the wrapper strictly exceeds the
  size of the search interval `[1, 100]`, so the fuel-exhausted branch is
  unreachable (the correctness lemmas only need `size < fuel`).
* CSV files are modelled at the level the code manipulates them: a header
  row of strings plus one record per data row holding the four numeric
  columns (`csv` formatting of the numbers themselves is I/O plumbing
  with no algorithmic content).
-/

/-- Mirror of `schemas.QiitaArticle` (pydantic model): one fetched post. -/
structure QiitaArticle where
  id : String
  likes_count : Nat
  stocks_count : Nat
  title : String
  url : String
  created_at : String
  updated_at : String
deriving DecidableEq

/-- A Python `dict[int, int]` in canonical form: an association list sorted
by strictly increasing key. -/
abbrev PyDict := List (Nat × Nat)

/-- `d.get(k, dflt)` — first-match lookup with a default. -/
def dictGet (d : PyDict) (k : Nat) (dflt : Nat) : Nat :=
  match d with
  | [] => dflt
  | (k', v) :: t => if k = k' then v else dictGet t k dflt

/-- `d[k] = v` — sorted insert-or-replace, keeping keys strictly increasing. -/
def dictSet : PyDict → Nat → Nat → PyDict
  | [], k, v => [(k, v)]
  | (k', v') :: t, k, v =>
    if k < k' then (k, v) :: (k', v') :: t
    else if k = k' then (k, v) :: t
    else (k', v') :: dictSet t k v

/-- The key list of a dict. -/
def dictKeys (d : PyDict) : List Nat := d.map Prod.fst

/-- Sum of all stored frequencies of a dict. -/
def dictTotal (d : PyDict) : Nat := (d.map Prod.snd).sum

/-- The canonical-representation invariant: keys strictly increasing. -/
def DictSorted (d : PyDict) : Prop := List.Pairwise (· < ·) (dictKeys d)

theorem dictGet_dictSet_self (d : PyDict) (k v dflt : Nat) :
    dictGet (dictSet d k v) k dflt = v := by
  induction d with
  | nil => simp [dictSet, dictGet]
  | cons hd t ih =>
    obtain ⟨k', v'⟩ := hd
    by_cases h1 : k < k'
    · simp [dictSet, dictGet, h1, Nat.ne_of_lt h1]
    · by_cases h2 : k = k'
      · simp [dictSet, dictGet, h1, h2]
      · simp [dictSet, dictGet, h1, h2, ih]

theorem dictGet_dictSet_ne (d : PyDict) (k v k' dflt : Nat) (h : k' ≠ k) :
    dictGet (dictSet d k v) k' dflt = dictGet d k' dflt := by
  induction d with
  | nil => simp [dictSet, dictGet, h]
  | cons hd t ih =>
    obtain ⟨k0, v0⟩ := hd
    by_cases h1 : k < k0
    · simp [dictSet, dictGet, h1, h]
    · by_cases h2 : k = k0
      · subst h2
        simp [dictSet, dictGet, h1, h]
      · by_cases h3 : k' = k0 <;> simp [dictSet, dictGet, h1, h2, h3, ih]

theorem mem_dictKeys_dictSet (d : PyDict) (k v k' : Nat) :
    k' ∈ dictKeys (dictSet d k v) ↔ k' = k ∨ k' ∈ dictKeys d := by
  induction d with
  | nil => simp [dictSet, dictKeys]
  | cons hd t ih =>
    obtain ⟨k0, v0⟩ := hd
    by_cases h1 : k < k0
    · simp only [dictSet, if_pos h1, dictKeys, List.map_cons, List.mem_cons]
    · by_cases h2 : k = k0
      · simp only [dictSet, if_neg h1, if_pos h2, dictKeys, List.map_cons, List.mem_cons]
        subst h2
        tauto
      · simp only [dictSet, if_neg h1, if_neg h2, dictKeys, List.map_cons, List.mem_cons]
        simp only [dictKeys] at ih
        rw [ih]
        tauto

theorem dictSorted_dictSet (d : PyDict) (k v : Nat) (h : DictSorted d) :
    DictSorted (dictSet d k v) := by
  induction d with
  | nil => simp [DictSorted, dictSet, dictKeys]
  | cons hd t ih =>
    obtain ⟨k0, v0⟩ := hd
    unfold DictSorted dictKeys at h ⊢
    simp only [List.map_cons, List.pairwise_cons] at h
    obtain ⟨hhead, htail⟩ := h
    by_cases h1 : k < k0
    · simp only [dictSet, if_pos h1, List.map_cons, List.pairwise_cons]
      refine ⟨?_, hhead, htail⟩
      intro y hy
      rcases List.mem_cons.1 hy with rfl | hy'
      · exact h1
      · exact lt_trans h1 (hhead y hy')
    · by_cases h2 : k = k0
      · simp only [dictSet, if_neg h1, if_pos h2, List.map_cons, List.pairwise_cons]
        subst h2
        exact ⟨hhead, htail⟩
      · have hk0 : k0 < k := by omega
        simp only [dictSet, if_neg h1, if_neg h2, List.map_cons, List.pairwise_cons]
        refine ⟨?_, ih htail⟩
        intro y hy
        rcases (mem_dictKeys_dictSet t k v y).1 (by simpa [dictKeys] using hy) with rfl | hy'
        · exact hk0
        · exact hhead y (by simpa [dictKeys] using hy')

theorem dictGet_eq_dflt_of_not_mem (d : PyDict) (k dflt : Nat)
    (h : k ∉ dictKeys d) : dictGet d k dflt = dflt := by
  induction d with
  | nil => rfl
  | cons hd t ih =>
    obtain ⟨k0, v0⟩ := hd
    simp [dictKeys] at h
    simp [dictGet, h.1, ih (by simpa [dictKeys] using h.2)]

theorem dictGet_pos_of_mem (d : PyDict) (k : Nat)
    (hpos : ∀ p ∈ d, 0 < p.2) (h : k ∈ dictKeys d) : 0 < dictGet d k 0 := by
  induction d with
  | nil => simp [dictKeys] at h
  | cons hd t ih =>
    obtain ⟨k0, v0⟩ := hd
    by_cases h1 : k = k0
    · subst h1
      simpa [dictGet] using hpos (k, v0) (by simp)
    · simp [dictKeys, h1] at h
      simpa [dictGet, h1] using
        ih (fun p hp => hpos p (List.mem_cons_of_mem _ hp)) (by simpa [dictKeys] using h)

theorem dictTotal_dictSet (d : PyDict) (k v : Nat) (h : DictSorted d) :
    dictTotal (dictSet d k v) + dictGet d k 0 = dictTotal d + v := by
  induction d with
  | nil => simp [dictSet, dictTotal, dictGet]
  | cons hd t ih =>
    obtain ⟨k0, v0⟩ := hd
    unfold DictSorted dictKeys at h
    simp only [List.map_cons, List.pairwise_cons] at h
    obtain ⟨hhead, htail⟩ := h
    by_cases h1 : k < k0
    · have hnot : k ∉ dictKeys ((k0, v0) :: t) := by
        simp only [dictKeys, List.map_cons, List.mem_cons]
        rintro (rfl | hmem)
        · omega
        · exact absurd (hhead k hmem) (by omega)
      rw [dictGet_eq_dflt_of_not_mem _ _ _ hnot]
      simp only [dictSet, if_pos h1, dictTotal, List.map_cons, List.sum_cons]
      omega
    · by_cases h2 : k = k0
      · simp only [dictSet, if_neg h1, if_pos h2, dictTotal, dictGet, List.map_cons,
          List.sum_cons, if_pos h2]
        omega
      · simp only [dictSet, if_neg h1, if_neg h2]
        have := ih htail
        simp only [dictTotal, List.map_cons, List.sum_cons, dictGet, if_neg h2] at *
        omega

/-- Mirror of `schemas.ReactionCounts`: the three frequency distributions. -/
structure ReactionCounts where
  likes : PyDict
  stocks : PyDict
  reactions : PyDict
deriving DecidableEq

/-- Mirror of `count_reactions.count_reactions`: one linear pass over the
articles, incrementing the frequency of the like count, the stock count and
their sum in the respective dicts (`counts[key] = counts.get(key, 0) + 1`). -/
def count_reactions (articles : List QiitaArticle) : ReactionCounts :=
  articles.foldl
    (fun counts article =>
      let like_count := article.likes_count
      let stock_count := article.stocks_count
      let reaction_count := like_count + stock_count
      { likes := dictSet counts.likes like_count (dictGet counts.likes like_count 0 + 1)
        stocks := dictSet counts.stocks stock_count (dictGet counts.stocks stock_count 0 + 1)
        reactions :=
          dictSet counts.reactions reaction_count
            (dictGet counts.reactions reaction_count 0 + 1) })
    ⟨[], [], []⟩

/-- Build a frequency histogram of the values `vs` on top of the dict `d`. -/
def histoFrom (d : PyDict) (vs : List Nat) : PyDict :=
  vs.foldl (fun acc v => dictSet acc v (dictGet acc v 0 + 1)) d

theorem count_reactions_eq_histo (articles : List QiitaArticle) :
    count_reactions articles =
      ⟨histoFrom [] (articles.map (fun a => a.likes_count)),
       histoFrom [] (articles.map (fun a => a.stocks_count)),
       histoFrom [] (articles.map (fun a => a.likes_count + a.stocks_count))⟩ := by
  suffices h : ∀ (arts : List QiitaArticle) (c : ReactionCounts),
      arts.foldl
        (fun counts article =>
          { likes := dictSet counts.likes article.likes_count
              (dictGet counts.likes article.likes_count 0 + 1)
            stocks := dictSet counts.stocks article.stocks_count
              (dictGet counts.stocks article.stocks_count 0 + 1)
            reactions := dictSet counts.reactions (article.likes_count + article.stocks_count)
              (dictGet counts.reactions (article.likes_count + article.stocks_count) 0 + 1) }) c =
        ⟨histoFrom c.likes (arts.map (fun a => a.likes_count)),
         histoFrom c.stocks (arts.map (fun a => a.stocks_count)),
         histoFrom c.reactions (arts.map (fun a => a.likes_count + a.stocks_count))⟩ by
    exact h articles ⟨[], [], []⟩
  intro arts
  induction arts with
  | nil => intro c; rfl
  | cons a t ih =>
    intro c
    simp only [List.foldl_cons, List.map_cons, histoFrom, ih]

theorem histoFrom_get (vs : List Nat) (d : PyDict) (k : Nat) :
    dictGet (histoFrom d vs) k 0 = dictGet d k 0 + vs.count k := by
  induction vs generalizing d with
  | nil => simp [histoFrom]
  | cons v t ih =>
    simp only [histoFrom, List.foldl_cons] at *
    rw [ih]
    by_cases h : k = v
    · subst h
      rw [dictGet_dictSet_self]
      simp [List.count_cons]
      omega
    · rw [dictGet_dictSet_ne _ _ _ _ _ h]
      simp [List.count_cons, h]

theorem histoFrom_sorted (vs : List Nat) (d : PyDict) (h : DictSorted d) :
    DictSorted (histoFrom d vs) := by
  induction vs generalizing d with
  | nil => exact h
  | cons v t ih =>
    simp only [histoFrom, List.foldl_cons] at *
    exact ih _ (dictSorted_dictSet _ _ _ h)

theorem histoFrom_total (vs : List Nat) (d : PyDict) (h : DictSorted d) :
    dictTotal (histoFrom d vs) = dictTotal d + vs.length := by
  induction vs generalizing d with
  | nil => simp [histoFrom]
  | cons v t ih =>
    simp only [histoFrom, List.foldl_cons] at *
    rw [ih _ (dictSorted_dictSet _ _ _ h)]
    have := dictTotal_dictSet d v (dictGet d v 0 + 1) h
    simp only [List.length_cons]
    omega

/-- C4: for every list of articles (like and stock counts are `Nat`, hence
non-negative), `count_reactions` returns three frequency distributions whose
total summed frequencies each equal the number of articles, and which map
every value `k` to the number of articles whose like count (resp. stock
count, resp. like count + stock count) equals `k`. -/
theorem count_reactions_spec (articles : List QiitaArticle) :
    (dictTotal (count_reactions articles).likes = articles.length ∧
     dictTotal (count_reactions articles).stocks = articles.length ∧
     dictTotal (count_reactions articles).reactions = articles.length) ∧
    ∀ k : Nat,
      dictGet (count_reactions articles).likes k 0 =
        articles.countP (fun a => a.likes_count == k) ∧
      dictGet (count_reactions articles).stocks k 0 =
        articles.countP (fun a => a.stocks_count == k) ∧
      dictGet (count_reactions articles).reactions k 0 =
        articles.countP (fun a => a.likes_count + a.stocks_count == k) := by
  rw [count_reactions_eq_histo]
  have hsorted : DictSorted [] := by simp [DictSorted, dictKeys]
  have hcount : ∀ (f : QiitaArticle → Nat) (k : Nat),
      (articles.map f).count k = articles.countP (fun a => f a == k) := by
    intro f k
    rw [List.count_eq_countP, List.countP_map]
    rfl
  constructor
  · refine ⟨?_, ?_, ?_⟩ <;>
      · dsimp only
        rw [histoFrom_total _ _ hsorted]
        simp [dictTotal]
  · intro k
    refine ⟨?_, ?_, ?_⟩ <;>
      · dsimp only
        rw [histoFrom_get]
        simp [dictGet, hcount]

/-- The page-fetch loop of `count_reactions.collect_articles`: extend the
accumulator with each fetched page in order and stop early (`break`) as soon
as the accumulator has reached `sample_size` articles. -/
def collectLoop (fetch : Int → List QiitaArticle) (sample_size : Nat) :
    List Int → List QiitaArticle → List QiitaArticle
  | [], acc => acc
  | page :: rest, acc =>
    let acc2 := acc ++ fetch page
    if sample_size ≤ acc2.length then acc2
    else collectLoop fetch sample_size rest acc2

/-- The contract Python documents for `random.sample(pop, k)` (for `k` at most
the population size): the result has exactly `k` elements and every element is
drawn from the population. -/
def ValidSampler (sampler : List QiitaArticle → Nat → List QiitaArticle) : Prop :=
  ∀ pop k, k ≤ pop.length →
    (sampler pop k).length = k ∧ ∀ a ∈ sampler pop k, a ∈ pop

/-- Mirror of `count_reactions.collect_articles`.  The fetcher abstracts
`get_articles` applied to the fixed query and `per_page = 100`; the sampler
abstracts `random.sample`; `none` models the `sys.exit(1)` taken when no
article was collected at all. -/
def collect_articles (fetch : Int → List QiitaArticle)
    (sampler : List QiitaArticle → Nat → List QiitaArticle)
    (sample_size : Nat) (pages_to_fetch : List Int) : Option (List QiitaArticle) :=
  let collected := collectLoop fetch sample_size pages_to_fetch []
  if collected.length = 0 then none
  else if sample_size < collected.length then some (sampler collected sample_size)
  else some collected

theorem collectLoop_mem (fetch : Int → List QiitaArticle) (sample_size : Nat)
    (pages : List Int) (acc : List QiitaArticle) :
    ∀ a ∈ collectLoop fetch sample_size pages acc,
      a ∈ acc ∨ ∃ p ∈ pages, a ∈ fetch p := by
  induction pages generalizing acc with
  | nil =>
    intro a ha
    exact Or.inl ha
  | cons page rest ih =>
    intro a ha
    simp only [collectLoop] at ha
    by_cases h : sample_size ≤ (acc ++ fetch page).length
    · rw [if_pos h] at ha
      rcases List.mem_append.1 ha with h' | h'
      · exact Or.inl h'
      · exact Or.inr ⟨page, List.mem_cons_self _ _, h'⟩
    · rw [if_neg h] at ha
      rcases ih _ a ha with h' | ⟨p, hp, hp'⟩
      · rcases List.mem_append.1 h' with h'' | h''
        · exact Or.inl h''
        · exact Or.inr ⟨page, List.mem_cons_self _ _, h''⟩
      · exact Or.inr ⟨p, List.mem_cons_of_mem _ hp, hp'⟩

theorem collectLoop_length_ge (fetch : Int → List QiitaArticle) (sample_size : Nat)
    (pages : List Int) (acc : List QiitaArticle)
    (h : sample_size ≤ acc.length + (pages.map fun p => (fetch p).length).sum) :
    sample_size ≤ (collectLoop fetch sample_size pages acc).length := by
  induction pages generalizing acc with
  | nil =>
    simpa [collectLoop] using h
  | cons page rest ih =>
    simp only [collectLoop]
    by_cases h' : sample_size ≤ (acc ++ fetch page).length
    · rw [if_pos h']
      exact h'
    · rw [if_neg h']
      apply ih
      simp only [List.length_append, List.map_cons, List.sum_cons] at *
      omega

theorem collectLoop_length_le (fetch : Int → List QiitaArticle) (sample_size : Nat)
    (pages : List Int) (acc : List QiitaArticle)
    (h : acc.length ≤ sample_size) :
    (collectLoop fetch sample_size pages acc).length ≤
      acc.length + (pages.map fun p => (fetch p).length).sum := by
  induction pages generalizing acc with
  | nil => simp [collectLoop]
  | cons page rest ih =>
    simp only [collectLoop, List.map_cons, List.sum_cons]
    by_cases h' : sample_size ≤ (acc ++ fetch page).length
    · rw [if_pos h']
      simp only [List.length_append]
      omega
    · rw [if_neg h']
      have := ih (acc ++ fetch page) (by omega)
      simp only [List.length_append] at *
      omega

/-- C1: under the documented contract of `random.sample`, whenever
`collect_articles` returns (rather than exiting), the result has at most
`sample_size` articles, each returned article was yielded by one of the pages
in `pages_to_fetch`, the result has exactly `sample_size` articles whenever
the loop accumulated more than `sample_size`, and fewer than `sample_size`
articles are returned only when fewer than `sample_size` articles were
available across all fetched pages. -/
theorem collect_articles_spec (fetch : Int → List QiitaArticle)
    (sampler : List QiitaArticle → Nat → List QiitaArticle)
    (sample_size : Nat) (pages_to_fetch : List Int)
    (hs : ValidSampler sampler) (result : List QiitaArticle)
    (hr : collect_articles fetch sampler sample_size pages_to_fetch = some result) :
    result.length ≤ sample_size ∧
    (∀ a ∈ result, ∃ p ∈ pages_to_fetch, a ∈ fetch p) ∧
    (sample_size < (collectLoop fetch sample_size pages_to_fetch []).length →
      result.length = sample_size) ∧
    (result.length < sample_size →
      (pages_to_fetch.map fun p => (fetch p).length).sum < sample_size) := by
  simp only [collect_articles] at hr
  by_cases h0 : (collectLoop fetch sample_size pages_to_fetch []).length = 0
  · rw [if_pos h0] at hr
    exact absurd hr (by simp)
  · rw [if_neg h0] at hr
    by_cases h1 : sample_size < (collectLoop fetch sample_size pages_to_fetch []).length
    · rw [if_pos h1] at hr
      obtain ⟨hlen, hmem⟩ := hs _ sample_size (le_of_lt h1)
      have hres : result = sampler (collectLoop fetch sample_size pages_to_fetch []) sample_size := by
        injection hr with h
        exact h.symm
      subst hres
      refine ⟨le_of_eq hlen, ?_, fun _ => hlen, fun hlt => absurd hlen (by omega)⟩
      intro a ha
      rcases collectLoop_mem fetch sample_size pages_to_fetch [] a (hmem a ha) with h' | h'
      · simp at h'
      · exact h'
    · rw [if_neg h1] at hr
      have hres : result = collectLoop fetch sample_size pages_to_fetch [] := by
        injection hr with h
        exact h.symm
      subst hres
      refine ⟨by omega, ?_, by omega, ?_⟩
      · intro a ha
        rcases collectLoop_mem fetch sample_size pages_to_fetch [] a ha with h' | h'
        · simp at h'
        · exact h'
      · intro hlt
        by_contra hge
        push_neg at hge
        have := collectLoop_length_ge fetch sample_size pages_to_fetch [] (by simpa using hge)
        omega

/-- A deterministic sampler that keeps the first `k` collected articles; it
satisfies the `random.sample` contract. -/
def takeSampler : List QiitaArticle → Nat → List QiitaArticle :=
  fun pop k => pop.take k

theorem takeSampler_valid : ValidSampler takeSampler := by
  intro pop k hk
  constructor
  · simp [takeSampler]
    omega
  · intro a ha
    exact List.mem_of_mem_take ha

/-- A concrete article for witnesses. -/
def articleA : QiitaArticle :=
  ⟨"1", 10, 5, "Test Article 1", "https://qiita.com/articles/1", "2024-01-01", "2024-01-01"⟩

/-- A second concrete article for witnesses. -/
def articleB : QiitaArticle :=
  ⟨"2", 20, 10, "Test Article 2", "https://qiita.com/articles/2", "2024-01-02", "2024-01-02"⟩

/-- A concrete fetcher: page 1 has two articles, all other pages are empty. -/
def pageOneFetch : Int → List QiitaArticle :=
  fun p => if p = 1 then [articleA, articleB] else []

theorem collect_articles_spec_witness :
    [articleA].length ≤ 1 ∧
    (∀ a ∈ [articleA], ∃ p ∈ ([1] : List Int), a ∈ pageOneFetch p) ∧
    (1 < (collectLoop pageOneFetch 1 [1] []).length → [articleA].length = 1) ∧
    ([articleA].length < 1 →
      (([1] : List Int).map fun p => (pageOneFetch p).length).sum < 1) :=
  collect_articles_spec pageOneFetch takeSampler 1 [1] takeSampler_valid [articleA] (by decide)

/-- C9: `collect_articles` takes the fatal `sys.exit(1)` path (modelled by
`none`) exactly when the loop collected zero articles; whenever it returns
normally the collected accumulator was non-empty. -/
theorem collect_articles_exit_iff (fetch : Int → List QiitaArticle)
    (sampler : List QiitaArticle → Nat → List QiitaArticle)
    (sample_size : Nat) (pages_to_fetch : List Int) :
    collect_articles fetch sampler sample_size pages_to_fetch = none ↔
      collectLoop fetch sample_size pages_to_fetch [] = [] := by
  simp only [collect_articles]
  constructor
  · intro h
    by_cases h0 : (collectLoop fetch sample_size pages_to_fetch []).length = 0
    · exact List.length_eq_zero.1 h0
    · rw [if_neg h0] at h
      split at h <;> simp at h
  · intro h
    rw [h]
    simp

/-- The `while left <= right` loop of `count_reactions.find_valid_last_page`,
instrumented with the number of fetch calls made so far.  `probe p` models
the emptiness test `bool(get_articles(query, p, 100, headers))`; `mid` is
Python's `(left + right) // 2` (floor division, `Int.fdiv`).  One fuel unit
is consumed per iteration; the call site passes fuel `101`, strictly more
than the initial interval size 100, so fuel exhaustion is unreachable. -/
def bsearchLoop (probe : Int → Bool) :
    Nat → Int → Int → Int → Nat → Int × Nat
  | 0, _, _, last_valid, calls => (last_valid, calls)
  | fuel + 1, left, right, last_valid, calls =>
    if left ≤ right then
      let mid := (left + right).fdiv 2
      if probe mid then bsearchLoop probe fuel (mid + 1) right mid (calls + 1)
      else bsearchLoop probe fuel left (mid - 1) last_valid (calls + 1)
    else (last_valid, calls)

/-- Mirror of `count_reactions.find_valid_last_page`, returning both the
result and the total number of `get_articles` calls (the initial page-1
probe counts as one call). -/
def find_valid_last_page_run (fetch : Int → List QiitaArticle) : Int × Nat :=
  if (fetch 1).isEmpty then (0, 1)
  else bsearchLoop (fun p => !(fetch p).isEmpty) 101 1 100 1 1

/-- The page number returned by `find_valid_last_page`. -/
def find_valid_last_page (fetch : Int → List QiitaArticle) : Int :=
  (find_valid_last_page_run fetch).1

/-- The total number of page fetches `find_valid_last_page` performs. -/
def find_valid_last_page_calls (fetch : Int → List QiitaArticle) : Nat :=
  (find_valid_last_page_run fetch).2

/-- Monotonic emptiness: every non-empty page precedes every empty page. -/
def MonotonicEmptiness (fetch : Int → List QiitaArticle) : Prop :=
  ∀ p q : Int, p ≤ q → fetch q ≠ [] → fetch p ≠ []

theorem fdiv_two_bounds (a : Int) : 2 * a.fdiv 2 ≤ a ∧ a < 2 * a.fdiv 2 + 2 := by
  have h1 := Int.fmod_add_fdiv a 2
  have h2 : a.fmod 2 = a % 2 := Int.fmod_eq_emod _ (by norm_num)
  have h3 : 0 ≤ a % 2 := Int.emod_nonneg _ (by norm_num)
  have h4 : a % 2 < 2 := Int.emod_lt_of_pos _ (by norm_num)
  omega

theorem bsearchLoop_eq_boundary (f : Int → Bool) (P : Int) (hP1 : 1 ≤ P)
    (hP : ∀ p : Int, 1 ≤ p → p ≤ 100 → (f p = true ↔ p ≤ P)) :
    ∀ (fuel : Nat) (left right last_valid : Int) (calls : Nat),
      (right + 1 - left).toNat < fuel →
      1 ≤ left → left ≤ P + 1 → P ≤ right → right ≤ 100 →
      (last_valid = left - 1 ∨ (left = 1 ∧ last_valid = 1)) →
      (bsearchLoop f fuel left right last_valid calls).1 = P := by
  intro fuel
  induction fuel with
  | zero =>
    intro l r lv c hf h1 h2 h3 h4 h5
    omega
  | succ fuel ih =>
    intro l r lv c hf h1 h2 h3 h4 h5
    simp only [bsearchLoop]
    by_cases hlr : l ≤ r
    · rw [if_pos hlr]
      have hmid := fdiv_two_bounds (l + r)
      by_cases hfm : f ((l + r).fdiv 2) = true
      · rw [if_pos hfm]
        have hmP : (l + r).fdiv 2 ≤ P := (hP _ (by omega) (by omega)).1 hfm
        exact ih _ _ _ _ (by omega) (by omega) (by omega) (by omega) (by omega) (by omega)
      · rw [if_neg hfm]
        have hmP : ¬((l + r).fdiv 2 ≤ P) := fun hle => hfm ((hP _ (by omega) (by omega)).2 hle)
        exact ih _ _ _ _ (by omega) (by omega) (by omega) (by omega) (by omega) (by omega)
    · rw [if_neg hlr]
      omega

theorem bsearchLoop_calls_le (f : Int → Bool) :
    ∀ (fuel k : Nat) (left right last_valid : Int) (calls : Nat),
      (right + 1 - left).toNat < 2 ^ k →
      (right + 1 - left).toNat < fuel →
      (bsearchLoop f fuel left right last_valid calls).2 ≤ calls + k := by
  intro fuel
  induction fuel with
  | zero =>
    intro k l r lv c hk hf
    omega
  | succ fuel ih =>
    intro k l r lv c hk hf
    simp only [bsearchLoop]
    by_cases hlr : l ≤ r
    · rw [if_pos hlr]
      have hmid := fdiv_two_bounds (l + r)
      have hk0 : k ≠ 0 := by
        intro h0
        subst h0
        norm_num at hk
        omega
      obtain ⟨k', rfl⟩ : ∃ k', k = k' + 1 := ⟨k - 1, by omega⟩
      rw [pow_succ, mul_comm] at hk
      by_cases hfm : f ((l + r).fdiv 2) = true
      · rw [if_pos hfm]
        have h := ih k' ((l + r).fdiv 2 + 1) r ((l + r).fdiv 2) (c + 1)
          (by omega) (by omega)
        omega
      · rw [if_neg hfm]
        have h := ih k' l ((l + r).fdiv 2 - 1) lv (c + 1) (by omega) (by omega)
        omega
    · rw [if_neg hlr]
      omega

/-- C2: for a fetcher with monotonic page emptiness, `find_valid_last_page`
returns 0 when page 1 is empty, and otherwise returns the largest page `p`
with `1 ≤ p ≤ 100` for which the fetcher returns a non-empty result. -/
theorem find_valid_last_page_spec (fetch : Int → List QiitaArticle)
    (hmono : MonotonicEmptiness fetch) :
    (fetch 1 = [] → find_valid_last_page fetch = 0) ∧
    (fetch 1 ≠ [] →
      1 ≤ find_valid_last_page fetch ∧ find_valid_last_page fetch ≤ 100 ∧
      fetch (find_valid_last_page fetch) ≠ [] ∧
      ∀ p : Int, find_valid_last_page fetch < p → p ≤ 100 → fetch p = []) := by
  constructor
  · intro h
    simp [find_valid_last_page, find_valid_last_page_run, h]
  · intro h
    have hne : ((Finset.Icc (1 : ℤ) 100).filter (fun p => fetch p ≠ [])).Nonempty :=
      ⟨1, by simp [Finset.mem_filter, Finset.mem_Icc, h]⟩
    obtain ⟨P, hPmemS, hPmax⟩ :
        ∃ P ∈ (Finset.Icc (1 : ℤ) 100).filter (fun p => fetch p ≠ []),
          ∀ p ∈ (Finset.Icc (1 : ℤ) 100).filter (fun p => fetch p ≠ []), p ≤ P :=
      ⟨_, Finset.max'_mem _ hne, fun p hp => Finset.le_max' _ p hp⟩
    rw [Finset.mem_filter, Finset.mem_Icc] at hPmemS
    obtain ⟨⟨hP1, hP100⟩, hPne⟩ := hPmemS
    have hmax : ∀ p : Int, 1 ≤ p → p ≤ 100 → fetch p ≠ [] → p ≤ P := by
      intro p h1 h2 h3
      exact hPmax p (by rw [Finset.mem_filter, Finset.mem_Icc]; exact ⟨⟨h1, h2⟩, h3⟩)
    have hchar : ∀ p : Int, 1 ≤ p → p ≤ 100 →
        ((!(fetch p).isEmpty) = true ↔ p ≤ P) := by
      intro p hp1 hp100
      constructor
      · intro hf
        exact hmax p hp1 hp100 (by simpa using hf)
      · intro hpP
        have : fetch p ≠ [] := hmono p P hpP hPne
        simpa using this
    have hres : find_valid_last_page fetch = P := by
      unfold find_valid_last_page find_valid_last_page_run
      rw [if_neg (by simpa using h)]
      exact bsearchLoop_eq_boundary _ P hP1 hchar 101 1 100 1 1 (by norm_num)
        (by norm_num) (by omega) (by omega) (by norm_num) (by omega)
    rw [hres]
    refine ⟨hP1, hP100, hPne, ?_⟩
    intro p hPp hp100
    by_contra hne'
    have := hmax p (by omega) hp100 hne'
    omega

/-- A concrete monotonic fetcher: pages 1..3 are non-empty, the rest empty. -/
def upToThreeFetch : Int → List QiitaArticle :=
  fun p => if p ≤ 3 then [articleA] else []

theorem upToThreeFetch_monotonic : MonotonicEmptiness upToThreeFetch := by
  intro p q hpq hq
  simp only [upToThreeFetch] at *
  by_cases hq3 : q ≤ 3
  · rw [if_pos (by omega)]
    simp
  · rw [if_neg hq3] at hq
    exact absurd rfl hq

theorem find_valid_last_page_spec_witness :
    (upToThreeFetch 1 = [] → find_valid_last_page upToThreeFetch = 0) ∧
    (upToThreeFetch 1 ≠ [] →
      1 ≤ find_valid_last_page upToThreeFetch ∧
      find_valid_last_page upToThreeFetch ≤ 100 ∧
      upToThreeFetch (find_valid_last_page upToThreeFetch) ≠ [] ∧
      ∀ p : Int, find_valid_last_page upToThreeFetch < p → p ≤ 100 →
        upToThreeFetch p = []) :=
  find_valid_last_page_spec upToThreeFetch upToThreeFetch_monotonic

/-- A fetcher for which every page is non-empty (trivially monotonic). -/
def allPagesFetch : Int → List QiitaArticle := fun _ => [articleA]

/-- C3 counterexample: with every page non-empty (a monotonic emptiness
pattern), `find_valid_last_page` makes 8 fetch calls in total — the initial
page-1 probe plus 7 binary-search probes (pages 50, 75, 88, 94, 97, 99,
100) — refuting the claimed bound of 7 total calls. -/
theorem find_valid_last_page_calls_gt_seven :
    MonotonicEmptiness allPagesFetch ∧
    ¬ find_valid_last_page_calls allPagesFetch ≤ 7 := by
  constructor
  · intro p q hpq hq
    simp [allPagesFetch]
  · decide

/-- C3 amended: for every fetcher with monotonic page emptiness,
`find_valid_last_page` makes at most 8 calls in total to the page-fetch
operation (the initial page-1 probe plus at most 7 binary-search probes). -/
theorem find_valid_last_page_calls_le_eight (fetch : Int → List QiitaArticle)
    (hmono : MonotonicEmptiness fetch) :
    find_valid_last_page_calls fetch ≤ 8 := by
  unfold find_valid_last_page_calls find_valid_last_page_run
  by_cases h : (fetch 1).isEmpty
  · rw [if_pos h]
    norm_num
  · rw [if_neg h]
    have := bsearchLoop_calls_le (fun p => !(fetch p).isEmpty) 101 7 1 100 1 1
      (by norm_num) (by norm_num)
    omega

theorem find_valid_last_page_calls_le_eight_witness :
    find_valid_last_page_calls upToThreeFetch ≤ 8 :=
  find_valid_last_page_calls_le_eight upToThreeFetch upToThreeFetch_monotonic

/-- One data row of the persisted distribution file: the four numeric
columns `value, likes, stocks, reactions`. -/
structure CsvRow where
  value : Nat
  likes : Nat
  stocks : Nat
  reactions : Nat
deriving DecidableEq

/-- The persisted distribution file: the header row written by
`csv.writer.writerow` followed by the data rows. -/
structure CsvFile where
  header : List String
  rows : List CsvRow
deriving DecidableEq

/-- Insert a value into a sorted duplicate-free list, keeping it sorted and
duplicate-free. -/
def insertValue (k : Nat) : List Nat → List Nat
  | [] => [k]
  | x :: t =>
    if k < x then k :: x :: t
    else if k = x then x :: t
    else x :: insertValue k t

/-- Model of Python's `sorted(set(ks))`. -/
def sortedUnion (ks : List Nat) : List Nat := ks.foldr insertValue []

/-- The `all_values` list of `ReactionCounts.to_csv`: the sorted union of
the key sets of the three distributions. -/
def allValues (c : ReactionCounts) : List Nat :=
  sortedUnion (dictKeys c.likes ++ dictKeys c.stocks ++ dictKeys c.reactions)

/-- Mirror of `schemas.ReactionCounts.to_csv`: the header followed by one
row per value of `all_values`, each row carrying `d.get(value, 0)` for the
three distributions. -/
def ReactionCounts.to_csv (c : ReactionCounts) : CsvFile :=
  { header := ["value", "likes", "stocks", "reactions"]
    rows := (allValues c).map (fun v =>
      { value := v
        likes := dictGet c.likes v 0
        stocks := dictGet c.stocks v 0
        reactions := dictGet c.reactions v 0 }) }

/-- Mirror of `schemas.ReactionCounts.from_csv`: scan the rows in order and
store each column value under its `value` key, skipping zero counts. -/
def ReactionCounts.from_csv (file : CsvFile) : ReactionCounts :=
  file.rows.foldl
    (fun c r =>
      { likes := if 0 < r.likes then dictSet c.likes r.value r.likes else c.likes
        stocks := if 0 < r.stocks then dictSet c.stocks r.value r.stocks else c.stocks
        reactions :=
          if 0 < r.reactions then dictSet c.reactions r.value r.reactions
          else c.reactions })
    ⟨[], [], []⟩

theorem mem_insertValue (k : Nat) (l : List Nat) (x : Nat) :
    x ∈ insertValue k l ↔ x = k ∨ x ∈ l := by
  induction l with
  | nil => simp [insertValue]
  | cons y t ih =>
    by_cases h1 : k < y
    · simp only [insertValue, if_pos h1, List.mem_cons]
    · by_cases h2 : k = y
      · simp only [insertValue, if_neg h1, if_pos h2, List.mem_cons]
        subst h2
        tauto
      · simp only [insertValue, if_neg h1, if_neg h2, List.mem_cons]
        rw [ih]
        tauto

theorem sorted_insertValue (k : Nat) (l : List Nat)
    (h : List.Pairwise (· < ·) l) : List.Pairwise (· < ·) (insertValue k l) := by
  induction l with
  | nil => simp [insertValue]
  | cons y t ih =>
    rw [List.pairwise_cons] at h
    obtain ⟨hhead, htail⟩ := h
    by_cases h1 : k < y
    · simp only [insertValue, if_pos h1, List.pairwise_cons]
      refine ⟨?_, hhead, htail⟩
      intro z hz
      rcases List.mem_cons.1 hz with rfl | hz'
      · exact h1
      · exact lt_trans h1 (hhead z hz')
    · by_cases h2 : k = y
      · simp only [insertValue, if_neg h1, if_pos h2, List.pairwise_cons]
        subst h2
        exact ⟨hhead, htail⟩
      · simp only [insertValue, if_neg h1, if_neg h2, List.pairwise_cons]
        refine ⟨?_, ih htail⟩
        intro z hz
        rcases (mem_insertValue k t z).1 hz with rfl | hz'
        · omega
        · exact hhead z hz'

theorem mem_sortedUnion (ks : List Nat) (x : Nat) :
    x ∈ sortedUnion ks ↔ x ∈ ks := by
  induction ks with
  | nil => simp [sortedUnion]
  | cons k t ih =>
    simp only [sortedUnion, List.foldr_cons] at *
    rw [mem_insertValue, ih, List.mem_cons]

theorem sorted_sortedUnion (ks : List Nat) :
    List.Pairwise (· < ·) (sortedUnion ks) := by
  induction ks with
  | nil => simp [sortedUnion]
  | cons k t ih =>
    simp only [sortedUnion, List.foldr_cons] at *
    exact sorted_insertValue k _ ih

/-- C6: `to_csv` writes the exact header `value,likes,stocks,reactions`,
then exactly one row per distinct value in the union of the three key sets,
in strictly ascending order of value, each row carrying the value's
frequency in each distribution with default 0 where the value is absent. -/
theorem to_csv_spec (c : ReactionCounts) :
    (ReactionCounts.to_csv c).header = ["value", "likes", "stocks", "reactions"] ∧
    List.Pairwise (· < ·) ((ReactionCounts.to_csv c).rows.map (fun r => r.value)) ∧
    (∀ v : Nat, v ∈ (ReactionCounts.to_csv c).rows.map (fun r => r.value) ↔
      (v ∈ dictKeys c.likes ∨ v ∈ dictKeys c.stocks ∨ v ∈ dictKeys c.reactions)) ∧
    ∀ r ∈ (ReactionCounts.to_csv c).rows,
      r.likes = dictGet c.likes r.value 0 ∧
      r.stocks = dictGet c.stocks r.value 0 ∧
      r.reactions = dictGet c.reactions r.value 0 := by
  have hmapval : (ReactionCounts.to_csv c).rows.map (fun r => r.value) = allValues c := by
    simp [ReactionCounts.to_csv, List.map_map, Function.comp_def]
  refine ⟨rfl, ?_, ?_, ?_⟩
  · rw [hmapval]
    exact sorted_sortedUnion _
  · intro v
    rw [hmapval, allValues, mem_sortedUnion]
    simp [List.mem_append]
  · intro r hr
    simp only [ReactionCounts.to_csv, List.mem_map] at hr
    obtain ⟨v, _, rfl⟩ := hr
    exact ⟨rfl, rfl, rfl⟩

/-- The per-column fold of `from_csv`, starting from dict `d`: scan the rows
in order and store each positive column value under the row's `value` key. -/
def colFoldFrom (f : CsvRow → Nat) (d : PyDict) (rows : List CsvRow) : PyDict :=
  rows.foldl (fun acc r => if 0 < f r then dictSet acc r.value (f r) else acc) d

theorem from_csv_eq_colFolds (file : CsvFile) :
    ReactionCounts.from_csv file =
      ⟨colFoldFrom (fun r => r.likes) [] file.rows,
       colFoldFrom (fun r => r.stocks) [] file.rows,
       colFoldFrom (fun r => r.reactions) [] file.rows⟩ := by
  suffices h : ∀ (rows : List CsvRow) (c : ReactionCounts),
      rows.foldl
        (fun c r =>
          { likes := if 0 < r.likes then dictSet c.likes r.value r.likes else c.likes
            stocks := if 0 < r.stocks then dictSet c.stocks r.value r.stocks else c.stocks
            reactions :=
              if 0 < r.reactions then dictSet c.reactions r.value r.reactions
              else c.reactions }) c =
        ⟨colFoldFrom (fun r => r.likes) c.likes rows,
         colFoldFrom (fun r => r.stocks) c.stocks rows,
         colFoldFrom (fun r => r.reactions) c.reactions rows⟩ by
    exact h file.rows ⟨[], [], []⟩
  intro rows
  induction rows with
  | nil => intro c; rfl
  | cons r t ih =>
    intro c
    simp only [List.foldl_cons, colFoldFrom, ih]

theorem dictSet_append_of_lt (acc : PyDict) (k v : Nat)
    (h : ∀ k' ∈ dictKeys acc, k' < k) : dictSet acc k v = acc ++ [(k, v)] := by
  induction acc with
  | nil => rfl
  | cons hd t ih =>
    obtain ⟨k0, v0⟩ := hd
    have hk0 : k0 < k := h k0 (by simp [dictKeys])
    simp only [dictSet, if_neg (by omega : ¬ k < k0), if_neg (by omega : ¬ k = k0),
      List.cons_append, List.cons.injEq, true_and]
    exact ih (fun k' hk' => h k' (by simp [dictKeys] at *; tauto))

theorem dictKeys_cons (k v : Nat) (t : PyDict) :
    dictKeys ((k, v) :: t) = k :: dictKeys t := rfl

theorem dictKeys_append (d1 d2 : PyDict) :
    dictKeys (d1 ++ d2) = dictKeys d1 ++ dictKeys d2 := List.map_append _ _ _

theorem foldl_congr_mem {A B : Type} (l : List B) (f g : A → B → A)
    (h : ∀ a b, b ∈ l → f a b = g a b) : ∀ a, l.foldl f a = l.foldl g a := by
  induction l with
  | nil => intro a; rfl
  | cons b t ih =>
    intro a
    simp only [List.foldl_cons]
    rw [h a b (List.mem_cons_self _ _)]
    exact ih (fun a' b' hb' => h a' b' (List.mem_cons_of_mem _ hb')) _

theorem foldRebuild :
    ∀ (vals : List Nat) (d acc : PyDict),
      DictSorted d → (∀ p ∈ d, 0 < p.2) →
      List.Pairwise (· < ·) vals →
      (∀ k ∈ dictKeys d, k ∈ vals) →
      (∀ k ∈ dictKeys acc, ∀ v ∈ vals, k < v) →
      vals.foldl
        (fun a v => if 0 < dictGet d v 0 then dictSet a v (dictGet d v 0) else a) acc =
        acc ++ d := by
  intro vals
  induction vals with
  | nil =>
    intro d acc _ _ _ hsub _
    have hd : d = [] := by
      cases d with
      | nil => rfl
      | cons p t =>
        exact absurd (hsub p.1 (by simp [dictKeys])) (by simp)
    simp [hd]
  | cons v vs ih =>
    intro d acc hsort hpos hvals hsub hacc
    rw [List.pairwise_cons] at hvals
    obtain ⟨hvvs, hvs⟩ := hvals
    simp only [List.foldl_cons]
    by_cases hget : 0 < dictGet d v 0
    · rw [if_pos hget]
      have hvmem : v ∈ dictKeys d := by
        by_contra hnm
        rw [dictGet_eq_dflt_of_not_mem _ _ _ hnm] at hget
        omega
      obtain ⟨w, d2, rfl⟩ : ∃ w d2, d = (v, w) :: d2 := by
        cases d with
        | nil => simp [dictKeys] at hvmem
        | cons p t =>
          obtain ⟨k0, w0⟩ := p
          rw [dictKeys_cons] at hvmem
          have hk0 : k0 = v := by
            rcases List.mem_cons.1
                (hsub k0 (by rw [dictKeys_cons]; exact List.mem_cons_self _ _)) with h | h
            · exact h
            · exfalso
              have hvk0 : v < k0 := hvvs k0 h
              rcases List.mem_cons.1 hvmem with h2 | h2
              · omega
              · unfold DictSorted at hsort
                rw [dictKeys_cons, List.pairwise_cons] at hsort
                exact absurd (hsort.1 v h2) (by omega)
          subst hk0
          exact ⟨w0, t, rfl⟩
      have hw : dictGet ((v, w) :: d2) v 0 = w := by simp [dictGet]
      rw [hw, dictSet_append_of_lt acc v w (fun k2 hk2 => hacc k2 hk2 v (by simp))]
      unfold DictSorted at hsort
      rw [dictKeys_cons, List.pairwise_cons] at hsort
      obtain ⟨hhead, htail⟩ := hsort
      have hstep := ih d2 (acc ++ [(v, w)]) htail
        (fun p hp => hpos p (List.mem_cons_of_mem _ hp)) hvs
        (fun k hk => by
          rcases List.mem_cons.1
              (hsub k (by rw [dictKeys_cons]; exact List.mem_cons_of_mem _ hk)) with h | h
          · exact absurd (hhead k hk) (by omega)
          · exact h)
        (fun k hk v2 hv2 => by
          rw [dictKeys_append] at hk
          rcases List.mem_append.1 hk with h | h
          · exact hacc k h v2 (List.mem_cons_of_mem _ hv2)
          · have : k = v := by simpa [dictKeys] using h
            subst this
            exact hvvs v2 hv2)
      have hcongr := foldl_congr_mem vs
        (fun a v2 =>
          if 0 < dictGet ((v, w) :: d2) v2 0 then dictSet a v2 (dictGet ((v, w) :: d2) v2 0)
          else a)
        (fun a v2 => if 0 < dictGet d2 v2 0 then dictSet a v2 (dictGet d2 v2 0) else a)
        (by
          intro a v2 hv2
          have hne : v2 ≠ v := by
            have := hvvs v2 hv2
            omega
          simp only [dictGet, if_neg hne])
        (acc ++ [(v, w)])
      rw [hcongr, hstep, List.append_assoc]
      rfl
    · rw [if_neg hget]
      have hnm : v ∉ dictKeys d := by
        intro hm
        exact hget (dictGet_pos_of_mem d v hpos hm)
      exact ih d acc hsort hpos hvs
        (fun k hk => by
          rcases List.mem_cons.1 (hsub k hk) with rfl | h
          · exact absurd hk hnm
          · exact h)
        (fun k hk v2 hv2 => hacc k hk v2 (List.mem_cons_of_mem _ hv2))

instance decDictSorted (d : PyDict) : Decidable (DictSorted d) := by
  unfold DictSorted
  infer_instance

/-- The row `to_csv` writes for one value: the value and the three
frequencies with default 0. -/
def csvRowOf (l s r : PyDict) (v : Nat) : CsvRow :=
  { value := v
    likes := dictGet l v 0
    stocks := dictGet s v 0
    reactions := dictGet r v 0 }

theorem to_csv_rows_eq (l s r : PyDict) :
    (ReactionCounts.to_csv ⟨l, s, r⟩).rows = (allValues ⟨l, s, r⟩).map (csvRowOf l s r) := rfl

theorem colFoldFrom_map_eq (l s r d : PyDict) (f : CsvRow → Nat)
    (hdsort : DictSorted d) (hdpos : ∀ p ∈ d, 0 < p.2)
    (hdsub : ∀ k ∈ dictKeys d, k ∈ allValues ⟨l, s, r⟩)
    (hf : ∀ v : Nat, f (csvRowOf l s r v) = dictGet d v 0) :
    colFoldFrom f [] ((allValues ⟨l, s, r⟩).map (csvRowOf l s r)) = d := by
  unfold colFoldFrom
  rw [List.foldl_map]
  have hvals : List.Pairwise (· < ·) (allValues ⟨l, s, r⟩) := sorted_sortedUnion _
  have hval : ∀ v : Nat, (csvRowOf l s r v).value = v := fun v => rfl
  have hrw := foldl_congr_mem (allValues ⟨l, s, r⟩)
    (fun acc v => if 0 < f (csvRowOf l s r v) then
        dictSet acc (csvRowOf l s r v).value (f (csvRowOf l s r v)) else acc)
    (fun acc v => if 0 < dictGet d v 0 then dictSet acc v (dictGet d v 0) else acc)
    (by
      intro a v hv
      dsimp only
      rw [hf v, hval v])
    []
  rw [hrw]
  have := foldRebuild (allValues ⟨l, s, r⟩) d [] hdsort hdpos hvals hdsub
    (by simp [dictKeys])
  rw [List.nil_append] at this
  exact this

/-- C5: for every triple of frequency distributions (in canonical dict form)
whose stored counts are all strictly positive, reading back the written CSV
reproduces the original triple exactly: `from_csv (to_csv c) = c`. -/
theorem from_csv_to_csv_roundtrip (c : ReactionCounts)
    (hl : DictSorted c.likes) (hs : DictSorted c.stocks) (hr : DictSorted c.reactions)
    (hlp : ∀ p ∈ c.likes, 0 < p.2) (hsp : ∀ p ∈ c.stocks, 0 < p.2)
    (hrp : ∀ p ∈ c.reactions, 0 < p.2) :
    ReactionCounts.from_csv (ReactionCounts.to_csv c) = c := by
  obtain ⟨l, s, r⟩ := c
  rw [from_csv_eq_colFolds, to_csv_rows_eq]
  have hsubl : ∀ k ∈ dictKeys l, k ∈ allValues ⟨l, s, r⟩ := by
    intro k hk
    rw [allValues, mem_sortedUnion]
    simp only [List.mem_append]
    exact Or.inl (Or.inl hk)
  have hsubs : ∀ k ∈ dictKeys s, k ∈ allValues ⟨l, s, r⟩ := by
    intro k hk
    rw [allValues, mem_sortedUnion]
    simp only [List.mem_append]
    exact Or.inl (Or.inr hk)
  have hsubr : ∀ k ∈ dictKeys r, k ∈ allValues ⟨l, s, r⟩ := by
    intro k hk
    rw [allValues, mem_sortedUnion]
    simp only [List.mem_append]
    exact Or.inr hk
  simp only [ReactionCounts.mk.injEq]
  exact ⟨colFoldFrom_map_eq l s r l (fun row => row.likes) hl hlp hsubl (fun v => rfl),
         colFoldFrom_map_eq l s r s (fun row => row.stocks) hs hsp hsubs (fun v => rfl),
         colFoldFrom_map_eq l s r r (fun row => row.reactions) hr hrp hsubr (fun v => rfl)⟩

/-- The sample distribution triple used by the repository's own tests. -/
def sampleCounts : ReactionCounts :=
  ⟨[(1, 10), (2, 5), (3, 2)], [(1, 8), (2, 3)], [(1, 12), (2, 6), (3, 4)]⟩

theorem from_csv_to_csv_roundtrip_witness :
    ReactionCounts.from_csv (ReactionCounts.to_csv sampleCounts) = sampleCounts :=
  from_csv_to_csv_roundtrip sampleCounts (by decide) (by decide) (by decide)
    (by decide) (by decide) (by decide)

/-- Mirror of `schemas.ReactionStats`; Python floats are modelled as exact
rationals (every quantity involved is exactly representable), and the
`n_more_or_ratio` dict is the association list in `n_values` order. -/
structure ReactionStats where
  total_articles : Nat
  median : ℚ
  mean : ℚ
  top_10_threshold : ℚ
  top_10_mean : ℚ
  top_10_median : ℚ
  top_10_count : Nat
  n_more_or_ratio : List (Int × ℚ)
deriving DecidableEq

/-- The expansion loop of `analyze_reactions`: for each row extend the
multiset with `[row["value"]] * row["reactions"]`. -/
def expandReactions (rows : List CsvRow) : List Nat :=
  rows.flatMap (fun row => List.replicate row.reactions row.value)

/-- `np.median`: the middle element of the sorted data, or the mean of the
two central elements for even length (`0` on the empty list, which the
analysis never reaches under its non-emptiness precondition). -/
def npMedian (l : List Nat) : ℚ :=
  let sorted := List.insertionSort (· ≤ ·) l
  let n := l.length
  if n % 2 = 1 then (sorted.getD (n / 2) 0 : ℚ)
  else ((sorted.getD (n / 2 - 1) 0 : ℚ) + (sorted.getD (n / 2) 0 : ℚ)) / 2

/-- `np.mean`: sum divided by length. -/
def npMean (l : List Nat) : ℚ := (l.sum : ℚ) / (l.length : ℚ)

/-- `np.percentile(l, 90)` with numpy's default linear interpolation: the
rank is `0.9 * (n - 1)`; interpolate between the order statistics at the
floor and the ceiling of the rank (for non-empty `l` the natural-number
index `9 * (n - 1) / 10` is exactly the floor of the rational rank). -/
def npPercentile90 (l : List Nat) : ℚ :=
  let sorted := List.insertionSort (· ≤ ·) l
  let n := l.length
  let i := 9 * (n - 1) / 10
  let pos : ℚ := 9 * ((n : ℚ) - 1) / 10
  let j := min (i + 1) (n - 1)
  (sorted.getD i 0 : ℚ) + (pos - (i : ℚ)) * ((sorted.getD j 0 : ℚ) - (sorted.getD i 0 : ℚ))

/-- Mirror of `analyze_reactions.analyze_reactions`: expand the `value` and
`reactions` columns into the raw multiset, then compute count, median, mean,
the 90th-percentile threshold, the statistics of the sub-multiset of values
at or above the threshold, and for each requested `n` the percentage of
values strictly greater than `n - 1`. -/
def analyze_reactions (file : CsvFile) (n_values : List Int) : ReactionStats :=
  let reactions := expandReactions file.rows
  let total_articles := reactions.length
  let top_10_threshold := npPercentile90 reactions
  let top_10_articles := reactions.filter (fun v : Nat => top_10_threshold ≤ (v : ℚ))
  { total_articles := total_articles
    median := npMedian reactions
    mean := npMean reactions
    top_10_threshold := top_10_threshold
    top_10_mean := npMean top_10_articles
    top_10_median := npMedian top_10_articles
    top_10_count := top_10_articles.length
    n_more_or_ratio := n_values.map (fun n =>
      (n, ((reactions.countP (fun v : Nat => (n : Int) - 1 < (v : Int))) : ℚ) /
        (total_articles : ℚ) * 100)) }

theorem expandReactions_congr :
    ∀ (r1 r2 : List CsvRow),
      r1.map (fun row => (row.value, row.reactions)) =
        r2.map (fun row => (row.value, row.reactions)) →
      expandReactions r1 = expandReactions r2 := by
  intro r1
  induction r1 with
  | nil =>
    intro r2 h
    cases r2 with
    | nil => rfl
    | cons b t => simp at h
  | cons a t ih =>
    intro r2 h
    cases r2 with
    | nil => simp at h
    | cons b t2 =>
      simp only [List.map_cons, List.cons.injEq] at h
      obtain ⟨hab, ht⟩ := h
      have h1 : a.value = b.value := congrArg Prod.fst hab
      have h2 : a.reactions = b.reactions := congrArg Prod.snd hab
      simp only [expandReactions, List.flatMap_cons] at *
      rw [h1, h2, ih t2 ht]

/-- C10: the statistics depend only on the `value` and `reactions` columns —
two input tables agreeing row-for-row on those two columns (but arbitrary in
`likes` and `stocks`) produce identical `ReactionStats` for the same
threshold list. -/
theorem analyze_reactions_ignores_likes_stocks (f1 f2 : CsvFile) (ns : List Int)
    (h : f1.rows.map (fun row => (row.value, row.reactions)) =
         f2.rows.map (fun row => (row.value, row.reactions))) :
    analyze_reactions f1 ns = analyze_reactions f2 ns := by
  have hexp : expandReactions f1.rows = expandReactions f2.rows :=
    expandReactions_congr _ _ h
  simp only [analyze_reactions, hexp]

/-- A concrete file whose rows carry arbitrary likes/stocks values. -/
def statsFileX : CsvFile :=
  ⟨["value", "likes", "stocks", "reactions"], [⟨1, 5, 0, 2⟩, ⟨3, 0, 7, 1⟩]⟩

/-- Same `value`/`reactions` columns as `statsFileX`, different likes/stocks. -/
def statsFileY : CsvFile :=
  ⟨["value", "likes", "stocks", "reactions"], [⟨1, 9, 4, 2⟩, ⟨3, 2, 0, 1⟩]⟩

theorem analyze_reactions_ignores_likes_stocks_witness :
    analyze_reactions statsFileX [1, 2] = analyze_reactions statsFileY [1, 2] :=
  analyze_reactions_ignores_likes_stocks statsFileX statsFileY [1, 2] (by decide)

/-- The distribution `{1:1, 2:1, 3:1, 4:1, 5:1}` as a persisted file. -/
def testFile5 : CsvFile :=
  ⟨["value", "likes", "stocks", "reactions"],
   [⟨1, 0, 0, 1⟩, ⟨2, 0, 0, 1⟩, ⟨3, 0, 0, 1⟩, ⟨4, 0, 0, 1⟩, ⟨5, 0, 0, 1⟩]⟩

/-- The distribution `{1..10 : each 1}` as a persisted file. -/
def testFile10 : CsvFile :=
  ⟨["value", "likes", "stocks", "reactions"],
   [⟨1, 0, 0, 1⟩, ⟨2, 0, 0, 1⟩, ⟨3, 0, 0, 1⟩, ⟨4, 0, 0, 1⟩, ⟨5, 0, 0, 1⟩,
    ⟨6, 0, 0, 1⟩, ⟨7, 0, 0, 1⟩, ⟨8, 0, 0, 1⟩, ⟨9, 0, 0, 1⟩, ⟨10, 0, 0, 1⟩]⟩

/-- C7: `analyze_reactions` expands the distribution into the multiset of
values repeated by frequency and computes the total count, the mean
(sum over count), the median (`npMedian`: middle order statistic, averaging
the two central ones for even length), the top-10 threshold (`npPercentile90`:
rank `0.9 * (n - 1)` with linear interpolation between the floor and ceiling
order statistics), and the top-10 count/mean/median over the sub-multiset of
values at or above the threshold.  In particular `{1..5 : each 1}` yields
`total_articles = 5, median = 3, mean = 3`, and `{1..10 : each 1}` yields
`top_10_threshold = 9.1, top_10_count = 1, top_10_mean = 10,
top_10_median = 10`. -/
theorem analyze_reactions_stats_spec (file : CsvFile) (ns : List Int)
    (h : expandReactions file.rows ≠ []) :
    ((analyze_reactions file ns).total_articles = (expandReactions file.rows).length ∧
     (analyze_reactions file ns).mean =
       ((expandReactions file.rows).sum : ℚ) / ((expandReactions file.rows).length : ℚ) ∧
     (analyze_reactions file ns).median = npMedian (expandReactions file.rows) ∧
     (analyze_reactions file ns).top_10_threshold =
       npPercentile90 (expandReactions file.rows) ∧
     (analyze_reactions file ns).top_10_count =
       ((expandReactions file.rows).filter
         (fun v : Nat => npPercentile90 (expandReactions file.rows) ≤ (v : ℚ))).length ∧
     (analyze_reactions file ns).top_10_mean =
       npMean ((expandReactions file.rows).filter
         (fun v : Nat => npPercentile90 (expandReactions file.rows) ≤ (v : ℚ))) ∧
     (analyze_reactions file ns).top_10_median =
       npMedian ((expandReactions file.rows).filter
         (fun v : Nat => npPercentile90 (expandReactions file.rows) ≤ (v : ℚ)))) ∧
    ((analyze_reactions testFile5 [1, 2, 3]).total_articles = 5 ∧
     (analyze_reactions testFile5 [1, 2, 3]).median = 3 ∧
     (analyze_reactions testFile5 [1, 2, 3]).mean = 3) ∧
    ((analyze_reactions testFile10 [1, 2, 3]).top_10_threshold = 91 / 10 ∧
     (analyze_reactions testFile10 [1, 2, 3]).top_10_count = 1 ∧
     (analyze_reactions testFile10 [1, 2, 3]).top_10_mean = 10 ∧
     (analyze_reactions testFile10 [1, 2, 3]).top_10_median = 10) := by
  refine ⟨⟨rfl, rfl, rfl, rfl, rfl, rfl, rfl⟩, ⟨by decide, ?_, ?_⟩, ?_⟩
  · have hexp : expandReactions testFile5.rows = [1, 2, 3, 4, 5] := by decide
    simp only [analyze_reactions, npMedian, hexp]
    norm_num [List.getD]
  · have hexp : expandReactions testFile5.rows = [1, 2, 3, 4, 5] := by decide
    simp only [analyze_reactions, npMean, hexp]
    norm_num
  · have hexp : expandReactions testFile10.rows = [1, 2, 3, 4, 5, 6, 7, 8, 9, 10] := by
      decide
    have ht : npPercentile90 [1, 2, 3, 4, 5, 6, 7, 8, 9, 10] = 91 / 10 := by
      simp only [npPercentile90]
      norm_num [List.getD]
    have hflt : ([1, 2, 3, 4, 5, 6, 7, 8, 9, 10] : List Nat).filter
        (fun v : Nat => (91 / 10 : ℚ) ≤ (v : ℚ)) = [10] := by
      norm_num [List.filter]
    refine ⟨?_, ?_, ?_, ?_⟩
    · simp only [analyze_reactions, npPercentile90, hexp]
      norm_num [List.getD]
    · simp only [analyze_reactions, hexp, ht, hflt]
      rfl
    · simp only [analyze_reactions, hexp, ht, hflt]
      simp [npMean]
    · simp only [analyze_reactions, hexp, ht, hflt]
      simp [npMedian, List.getD]

theorem analyze_reactions_stats_spec_witness :
    (analyze_reactions testFile5 [1, 2, 3]).total_articles =
      (expandReactions testFile5.rows).length :=
  (analyze_reactions_stats_spec testFile5 [1, 2, 3] (by decide)).1.1

/-- C8: for each requested threshold `n`, `analyze_reactions` reports
`100 * |{v : v > n - 1}| / total` as a percentage, which lies in `[0, 100]`
when the expanded distribution is non-empty; on `{1..5 : each 1}` with
thresholds `[1, 2, 3]` the reported map is `{1: 100, 2: 80, 3: 60}`. -/
theorem analyze_reactions_ratio_spec (file : CsvFile) (ns : List Int)
    (h : expandReactions file.rows ≠ []) :
    ((analyze_reactions file ns).n_more_or_ratio = ns.map (fun n =>
       (n, 100 * ((expandReactions file.rows).countP
         (fun v : Nat => (n : Int) - 1 < (v : Int)) : ℚ) /
         ((expandReactions file.rows).length : ℚ))) ∧
     ∀ p ∈ (analyze_reactions file ns).n_more_or_ratio, 0 ≤ p.2 ∧ p.2 ≤ 100) ∧
    (analyze_reactions testFile5 [1, 2, 3]).n_more_or_ratio =
      [(1, 100), (2, 80), (3, 60)] := by
  have hlen : 0 < ((expandReactions file.rows).length : ℚ) := by
    have : expandReactions file.rows ≠ [] := h
    have hlen' : 0 < (expandReactions file.rows).length := List.length_pos.2 this
    exact_mod_cast hlen'
  refine ⟨⟨?_, ?_⟩, ?_⟩
  · apply List.map_congr_left
    intro n _
    dsimp only
    rw [Prod.mk.injEq]
    refine ⟨rfl, ?_⟩
    ring
  · intro p hp
    simp only [analyze_reactions, List.mem_map] at hp
    obtain ⟨n, _, rfl⟩ := hp
    dsimp only
    have hcle : (expandReactions file.rows).countP
        (fun v : Nat => (n : Int) - 1 < (v : Int)) ≤ (expandReactions file.rows).length :=
      List.countP_le_length _
    constructor
    · positivity
    · have hratio : ((expandReactions file.rows).countP
          (fun v : Nat => (n : Int) - 1 < (v : Int)) : ℚ) /
          ((expandReactions file.rows).length : ℚ) ≤ 1 := by
        rw [div_le_one hlen]
        exact_mod_cast hcle
      calc ((expandReactions file.rows).countP
            (fun v : Nat => (n : Int) - 1 < (v : Int)) : ℚ) /
            ((expandReactions file.rows).length : ℚ) * 100 ≤ 1 * 100 :=
        mul_le_mul_of_nonneg_right hratio (by norm_num)
      _ = 100 := by norm_num
  · have hexp : expandReactions testFile5.rows = [1, 2, 3, 4, 5] := by decide
    simp only [analyze_reactions, hexp]
    norm_num [List.countP, List.countP.go]

theorem analyze_reactions_ratio_spec_witness :
    (analyze_reactions testFile5 [1, 2, 3]).n_more_or_ratio =
      ([1, 2, 3] : List Int).map (fun n =>
       (n, 100 * ((expandReactions testFile5.rows).countP
         (fun v : Nat => (n : Int) - 1 < (v : Int)) : ℚ) /
         ((expandReactions testFile5.rows).length : ℚ))) :=
  (analyze_reactions_ratio_spec testFile5 [1, 2, 3] (by decide)).1.1
